import Mathlib

/-!
Verification of the `common-utils` sequence/utility library.

The library exists in two variants:
* a generator-based variant (lazy sequence combinators over iterables), and
* an array-based variant (eager functions over arrays).

We embed both. Finite sequences are modelled as `List α`; JavaScript numbers
used as counts/indices are modelled as `Int` (the code only ever compares
them with `===`, `<=`, `<`), and the possibly-NaN index argument of `nth` is
modelled by the type `JSNum`. Generator loops are translated into structurally
recursive Lean functions carrying the loop counters explicitly; for claims
about behaviour on infinite sources we additionally give a small-step
iterator semantics over an arbitrary source (`StepRes`, `runGen`) and an
infinite stream source.
-/

namespace CommonUtils

/-- A JavaScript `number` argument that may be NaN: `isNumber` in the source
rejects NaN.  Integral values are all the code ever distinguishes. -/
inductive JSNum where
  | nan : JSNum
  | int (n : ℤ) : JSNum

/-! ### Generator-based variant (`take`, also called `limit` in the older
snapshot; both have identical bodies). Source:

```
export function* take<T>(count, iter) {
  let _count = 0;
  for (const e of iter) {
    if (_count === count) return;
    yield e;
    _count += 1;
  }
}
``` -/

/-- Loop of `take`: `c` is the running `_count`, `count` the argument. -/
def takeGo (count : ℤ) (c : ℤ) : List α → List α
  | [] => []
  | e :: rest => if c = count then [] else e :: takeGo count (c + 1) rest

/-- `take(count, iter)` from the source: start the loop with `_count = 0`. -/
def take (count : ℤ) (iter : List α) : List α :=
  takeGo count 0 iter

theorem takeGo_of_lt (count c : ℤ) (hc : count < c) (xs : List α) :
    takeGo count c xs = xs := by
  induction xs generalizing c with
  | nil => rfl
  | cons e rest ih =>
    rw [takeGo, if_neg (by omega)]
    rw [ih (c + 1) (by omega)]

theorem takeGo_of_le (count c : ℤ) (hc : c ≤ count) (xs : List α) :
    takeGo count c xs = xs.take (count - c).toNat := by
  induction xs generalizing c with
  | nil => simp [takeGo]
  | cons e rest ih =>
    rw [takeGo]
    by_cases h : c = count
    · subst h
      simp
    · rw [if_neg h, ih (c + 1) (by omega)]
      have h1 : (count - c).toNat = (count - (c + 1)).toNat + 1 := by omega
      rw [h1, List.take_succ_cons]

theorem take_eq (count : ℤ) (xs : List α) :
    take count xs = if 0 ≤ count then xs.take count.toNat else xs := by
  unfold take
  by_cases h : 0 ≤ count
  · rw [if_pos h, takeGo_of_le count 0 h]
    simp
  · rw [if_neg h, takeGo_of_lt count 0 (by omega)]

/-! ### `drop`, `toArray`, `reverse`, `dropRight` (generator-based variant)

```
export function* drop<T>(count = 1, iterable) {
  let _count = count;
  for (const e of iterable) {
    if (_count <= 0) yield e;
    _count -= 1;
  }
}
export function toArray<T>(iter) { return Array.from(iter); }
export function* reverse<T>(iterable) {
  const reversedArr = toArray(iterable).reverse();
  for (const e of reversedArr) yield e;
}
export function dropRight<T>(count = 1, iterable) {
  return reverse(drop(count, reverse(iterable)));
}
``` -/

/-- Loop of `drop`: `c` is the running `_count` (starts at the argument). -/
def dropGo (c : ℤ) : List α → List α
  | [] => []
  | e :: rest => (if c ≤ 0 then [e] else []) ++ dropGo (c - 1) rest

/-- `drop(count, iterable)` from the source. -/
def drop (count : ℤ) (iterable : List α) : List α :=
  dropGo count iterable

/-- `toArray(iter)` from the source: materializes a sequence. On the list
model this is the identity. -/
def toArray (iter : List α) : List α := iter

/-- `reverse(iterable)` from the source: materialize, reverse, re-yield. -/
def reverse (iterable : List α) : List α :=
  (toArray iterable).reverse

/-- `dropRight(count, iterable)` from the generator-based source. -/
def dropRight (count : ℤ) (iterable : List α) : List α :=
  reverse (drop count (reverse iterable))

/-! ### Array-based variant of `dropRight`

```
export function dropRight<T>(length = 1, iterable) {
  const arr = Array.from(iterable);
  const maxLength = arr.length;
  return arr.slice(0, maxLength - length);
}
```

`arr.slice(0, e)` for a possibly negative `e` follows the ECMAScript
`Array.prototype.slice` clamping: a negative end counts from the end of the
array. -/

/-- ECMAScript end-index resolution for `Array.prototype.slice`:
`relativeEnd < 0 ? max(len + relativeEnd, 0) : min(relativeEnd, len)`. -/
def jsSliceEnd (len e : ℤ) : ℤ :=
  if e < 0 then max (len + e) 0 else min e len

/-- `dropRight(length, iterable)` from the array-based source:
`arr.slice(0, arr.length - length)`. -/
def dropRightArr (length : ℤ) (iterable : List α) : List α :=
  iterable.take (jsSliceEnd iterable.length (iterable.length - length)).toNat

theorem dropGo_eq (c : ℤ) (xs : List α) :
    dropGo c xs = xs.drop c.toNat := by
  induction xs generalizing c with
  | nil => simp [dropGo]
  | cons e rest ih =>
    rw [dropGo, ih (c - 1)]
    by_cases h : c ≤ 0
    · rw [if_pos h]
      have h0 : c.toNat = 0 := by omega
      have h1 : (c - 1).toNat = 0 := by omega
      rw [h0, h1, List.drop_zero, List.drop_zero, List.singleton_append]
    · rw [if_neg h]
      have h1 : c.toNat = (c - 1).toNat + 1 := by omega
      rw [h1, List.nil_append, List.drop_succ_cons]

theorem drop_eq (n : ℕ) (xs : List α) : drop (n : ℤ) xs = xs.drop n := by
  rw [drop, dropGo_eq]
  simp

/-- The generator-based `dropRight` keeps exactly the first `length - n`
elements. -/
theorem dropRight_eq (n : ℕ) (xs : List α) :
    dropRight (n : ℤ) xs = xs.take (xs.length - n) := by
  rw [dropRight, reverse, toArray, reverse, toArray, drop_eq,
    ← List.rdrop_eq_reverse_drop_reverse, List.rdrop]

/-- C1 counterexample: the claim states that `take(n, seq)` produces an empty
sequence for every `n <= 0`, but for the negative count `-1` the guard
`_count === count` never fires and `take` yields the whole source. -/
theorem take_neg_yields_all :
    take (-1 : ℤ) [(1 : ℤ), 2, 3] = [1, 2, 3] ∧
    take (-1 : ℤ) [(1 : ℤ), 2, 3] ≠ [] := by
  constructor
  · rfl
  · decide

/-- C1 (amended): `take(n, seq)` yields the first `min n |seq|` elements when
`n >= 0` (so `take 0` is empty and `take` never yields more than `n`
elements), but for negative `n` it yields the entire source sequence, not an
empty one. -/
theorem take_prefix_behavior (count : ℤ) (xs : List α) :
    take count xs = if 0 ≤ count then xs.take count.toNat else xs :=
  take_eq count xs

/-- C4 counterexample: the claim states that whenever `n >= |seq|` the result
of `dropRight(n, seq)` is empty, but the array-based variant computes
`arr.slice(0, 3 - 5)` = `arr.slice(0, -2)`, which keeps the first element of
`[1, 2, 3]`. -/
theorem dropRightArr_over_length :
    dropRightArr (5 : ℤ) [(1 : ℤ), 2, 3] = [1] ∧
    dropRightArr (5 : ℤ) [(1 : ℤ), 2, 3] ≠ [] := by
  constructor
  · rfl
  · decide

/-- C4 (amended): for every `n >= 0`, the generator-based `dropRight(n, seq)`
produces exactly the elements of `seq` except the last `n` (so the result is
empty when `n >= |seq|`); the array-based variant agrees only while
`n <= |seq|`, and for `n > |seq|` it instead keeps the first `2*|seq| - n`
elements (empty only once `n >= 2*|seq|`). -/
theorem dropRight_both_variants (n : ℕ) (xs : List α) :
    dropRight (n : ℤ) xs = xs.take (xs.length - n) ∧
    dropRightArr (n : ℤ) xs =
      xs.take (if n ≤ xs.length then xs.length - n else 2 * xs.length - n) := by
  refine ⟨dropRight_eq n xs, ?_⟩
  rw [dropRightArr]
  congr 1
  simp only [jsSliceEnd, Int.max_def, Int.min_def]
  split_ifs <;> omega

/-! ### `slice` (same body in both variants)

```
export function* slice<T>(start, end, iter) {
  let index = 0;
  for (const e of iter) {
    if (start <= index && index <= end) yield e;
    index += 1;
  }
}
``` -/

/-- Loop of `slice`: `index` is the running source index. The `end` parameter
is named `stop` here because `end` is reserved in Lean. -/
def sliceGo (start stop : ℤ) (index : ℕ) : List α → List α
  | [] => []
  | e :: rest =>
    (if start ≤ (index : ℤ) ∧ (index : ℤ) ≤ stop then [e] else []) ++
      sliceGo start stop (index + 1) rest

/-- `slice(start, end, iter)` from the source: loop with `index = 0`. -/
def slice (start stop : ℤ) (iter : List α) : List α :=
  sliceGo start stop 0 iter

theorem sliceGo_eq (start stop : ℤ) (i : ℕ) (xs : List α) :
    sliceGo start stop i xs =
      ((xs.enumFrom i).filter
        (fun p => decide (start ≤ (p.1 : ℤ) ∧ (p.1 : ℤ) ≤ stop))).map Prod.snd := by
  induction xs generalizing i with
  | nil => rfl
  | cons e rest ih =>
    rw [sliceGo, ih (i + 1), List.enumFrom_cons, List.filter_cons]
    by_cases h : start ≤ (i : ℤ) ∧ (i : ℤ) ≤ stop
    · rw [if_pos h, if_pos (by simpa using h)]
      simp
    · rw [if_neg h, if_neg (by simpa using h)]
      simp

/-- C5: `slice(start, end, seq)` yields exactly the elements whose zero-based
index `i` satisfies `start <= i <= end` (inclusive on both ends), in source
order; in particular `slice(2, 3, "abcde")` gives `['c', 'd']`. -/
theorem slice_inclusive_range (start stop : ℤ) (xs : List α) :
    slice start stop xs =
      ((xs.enum.filter
        (fun p => decide (start ≤ (p.1 : ℤ) ∧ (p.1 : ℤ) ≤ stop))).map Prod.snd) ∧
    slice 2 3 ['a', 'b', 'c', 'd', 'e'] = ['c', 'd'] := by
  constructor
  · rw [slice, sliceGo_eq, List.enum]
  · rfl

/-! ### `nth`: generator-based and array-based variants

Generator-based (part_000):
```
export function nth<T>(index, iterable) {
  if (!isNumber(index)) throw new Error("index must be number");
  let i = 0;
  for (const e of iterable) {
    if (i === index) return e;
    i += 1;
  }
}
```
Array-based (common-utils.ts):
```
export function nth<T>(index, list) {
  if (!isNumber(index)) throw new Error("index must be number");
  if (!Array.isArray(list)) throw new Error("list must be indexed");
  if (index < 0 || index > list.length - 1) throw new Error("index is out of bound");
  return list[index];
}
```
A thrown `Error` is modelled by `Except.error` carrying the message; the
implicit `undefined` return of the generator variant by `Option.none`. -/

/-- Loop of the generator-based `nth`: `i` is the running index. -/
def nthGo (index : ℤ) (i : ℕ) : List α → Option α
  | [] => none
  | e :: rest => if (i : ℤ) = index then some e else nthGo index (i + 1) rest

/-- Generator-based `nth(index, iterable)`. -/
def nthGen (index : JSNum) (iterable : List α) : Except String (Option α) :=
  match index with
  | .nan => .error "index must be number"
  | .int i => .ok (nthGo i 0 iterable)

/-- Array-based `nth(index, list)`; the in-range `list[index]` access is
JavaScript indexing, i.e. `List.get?`. -/
def nthArr (index : JSNum) (list : List α) : Except String (Option α) :=
  match index with
  | .nan => .error "index must be number"
  | .int i =>
    if i < 0 ∨ (list.length : ℤ) - 1 < i then .error "index is out of bound"
    else .ok (list.get? i.toNat)

theorem nthGo_eq (index : ℤ) (i : ℕ) (xs : List α) :
    nthGo index i xs =
      if (i : ℤ) ≤ index then xs.get? (index - i).toNat else none := by
  induction xs generalizing i with
  | nil => simp [nthGo]
  | cons e rest ih =>
    rw [nthGo, ih (i + 1)]
    by_cases h : (i : ℤ) = index
    · rw [if_pos h, if_pos (le_of_eq h)]
      have h0 : (index - i).toNat = 0 := by omega
      rw [h0, List.get?_cons_zero]
    · rw [if_neg h]
      by_cases h2 : (i : ℤ) ≤ index
      · rw [if_pos (by push_cast; omega), if_pos h2]
        have h1 : (index - i).toNat = (index - (i + 1 : ℕ)).toNat + 1 := by
          push_cast
          omega
        rw [h1, List.get?_cons_succ]
      · rw [if_neg (by push_cast; omega), if_neg h2]

/-- C3: both `nth` variants raise the invalid-argument error on a non-numeric
(NaN) index; on a numeric zero-based index `i` the generator-based variant
returns the element at index `i`, or the absence sentinel (`none`) when the
sequence is shorter than `i + 1`; the array-based variant returns the element
when `i` is in range and raises the out-of-bound error otherwise. -/
theorem nth_both_variants (xs : List α) (i : ℕ) :
    nthGen .nan xs = .error "index must be number" ∧
    nthArr .nan xs = .error "index must be number" ∧
    nthGen (.int (i : ℤ)) xs = .ok (xs.get? i) ∧
    nthArr (.int (i : ℤ)) xs =
      (if i < xs.length then .ok (xs.get? i) else .error "index is out of bound") := by
  refine ⟨rfl, rfl, ?_, ?_⟩
  · rw [nthGen, nthGo_eq]
    rw [if_pos (by omega)]
    norm_num
  · rw [nthArr]
    by_cases h : i < xs.length
    · rw [if_neg (by omega), if_pos h]
      norm_num
    · rw [if_pos (by omega), if_neg h]

/-! ### `cat`, `construct`, `map`, `flatMap`, `interpose` (generator-based)

```
export function* cat<T>(...iterables) {
  for (const e of iterables) for (const _e of e) yield _e;
}
export function construct<T>(head, tails) { return cat([head], tails); }
export function* map<T, S>(mapper, iterable) {
  for (const e of iterable) yield mapper(e);
}
export function flatMap<T, S>(mapper, iterable) {
  return cat(...map(mapper, iterable));
}
export function interpose<T, S>(inserter, iterable) {
  return dropRight(1, flatMap((e) => construct(e, [inserter(e)]), iterable));
}
``` -/

/-- `cat(...iterables)`: concatenate a list of sequences. -/
def cat (iterables : List (List α)) : List α := iterables.flatten

/-- `construct(head, tails)` from the source. -/
def construct (head : α) (tails : List α) : List α := cat [[head], tails]

/-- `map(mapper, iterable)` from the source. -/
def mapG (mapper : α → β) (iterable : List α) : List β := iterable.map mapper

/-- `flatMap(mapper, iterable)` from the source. -/
def flatMapG (mapper : α → List β) (iterable : List α) : List β :=
  cat (mapG mapper iterable)

/-- `interpose(inserter, iterable)` from the source. -/
def interpose (inserter : α → α) (iterable : List α) : List α :=
  dropRight 1 (flatMapG (fun e => construct e [inserter e]) iterable)

/-- The spec's description of `interpose`: elements in order with
`f (preceding element)` inserted between each adjacent pair, unchanged on
empty or singleton sources. -/
def specInterpose (f : α → α) : List α → List α
  | [] => []
  | [a] => [a]
  | a :: b :: rest => a :: f a :: specInterpose f (b :: rest)

theorem dropRight_one (ys : List α) : dropRight 1 ys = ys.take (ys.length - 1) := by
  have h := dropRight_eq 1 ys
  simpa using h

theorem flatMapG_pair_cons (f : α → α) (a : α) (rest : List α) :
    flatMapG (fun e => construct e [f e]) (a :: rest) =
      a :: f a :: flatMapG (fun e => construct e [f e]) rest := rfl

theorem interpose_eq_spec (f : α → α) (xs : List α) :
    interpose f xs = specInterpose f xs := by
  induction xs with
  | nil => rfl
  | cons a rest ih =>
    cases rest with
    | nil => rfl
    | cons b r =>
      rw [specInterpose, ← ih, interpose, interpose, dropRight_one, dropRight_one,
        flatMapG_pair_cons, flatMapG_pair_cons f b r]
      generalize flatMapG (fun e => construct e [f e]) r = t
      have h1 : (a :: f a :: b :: f b :: t).length - 1 = (t.length + 2) + 1 := by
        simp
      have h2 : (b :: f b :: t).length - 1 = t.length + 1 := by
        simp
      rw [h1, h2, List.take_succ_cons, List.take_succ_cons, List.take_succ_cons]

/-- C6: `interpose(fn, seq)` yields the elements of `seq` in order with
`fn(preceding element)` inserted between each adjacent pair, with no
separator before the first or after the last element, and leaves empty and
singleton sources unchanged; in particular
`interpose(n => -n, [1,2,3]) = [1,-1,2,-2,3]`. -/
theorem interpose_between_pairs (f : α → α) (xs : List α) (a : α) :
    interpose f xs = specInterpose f xs ∧
    interpose f ([] : List α) = [] ∧
    interpose f [a] = [a] ∧
    interpose (fun n => -n) [(1 : ℤ), 2, 3] = [1, -1, 2, -2, 3] := by
  refine ⟨interpose_eq_spec f xs, rfl, ?_, by decide⟩
  rw [interpose_eq_spec, specInterpose]

/-! ### `reduce`: both call shapes

```
export function reduce<T, S>(reducer, initialOrIterable, maybeIterable?) {
  let index = 0;
  let accumulator; let iterable;
  if (maybeIterable === undefined) {
    iterable = initialOrIterable;
    const iterator = iterable[Symbol.iterator]();
    const first = iterator.next();
    if (first.done) {
      throw new TypeError("You are trying to reduce of empty iterable with no initial value.");
    }
    accumulator = first.value;
    let result = iterator.next();
    while (!result.done) {
      accumulator = reducer(accumulator, result.value, ++index);
      result = iterator.next();
    }
  } else {
    accumulator = initialOrIterable;
    iterable = maybeIterable;
    for (const item of iterable) {
      accumulator = reducer(accumulator, item, index++);
    }
  }
  return accumulator;
}
```

The two call shapes are embedded as two functions.  Note the no-initial
branch passes `++index` (pre-increment: 1, 2, ...) while the with-initial
branch passes `index++` (post-increment: 0, 1, ...). -/

/-- Loop of the no-initial-value shape of `reduce`: the reducer receives
`++index`, i.e. `index + 1`, and the loop continues with that value. -/
def reduceNoInitGo (reducer : α → α → ℕ → α) (acc : α) (index : ℕ) :
    List α → α
  | [] => acc
  | item :: rest => reduceNoInitGo reducer (reducer acc item (index + 1)) (index + 1) rest

/-- `reduce(reducer, iterable)` (no initial value): the first element seeds
the accumulator; an empty iterable raises a `TypeError`. -/
def reduceNoInit (reducer : α → α → ℕ → α) (iterable : List α) :
    Except String α :=
  match iterable with
  | [] => .error "You are trying to reduce of empty iterable with no initial value."
  | first :: rest => .ok (reduceNoInitGo reducer first 0 rest)

/-- Loop of the with-initial-value shape of `reduce`: the reducer receives
`index++`, i.e. the current value, and the loop continues with `index + 1`. -/
def reduceInitGo (reducer : β → α → ℕ → β) (acc : β) (index : ℕ) :
    List α → β
  | [] => acc
  | item :: rest => reduceInitGo reducer (reducer acc item index) (index + 1) rest

/-- `reduce(reducer, initial, iterable)` (with initial value). -/
def reduceInit (reducer : β → α → ℕ → β) (initial : β) (iterable : List α) : β :=
  reduceInitGo reducer initial 0 iterable

theorem reduceNoInitGo_collect (seed : List ℕ) (index : ℕ) (xs : List (List ℕ)) :
    reduceNoInitGo (fun acc _ i => acc ++ [i]) seed index xs =
      seed ++ List.range' (index + 1) xs.length := by
  induction xs generalizing seed index with
  | nil => simp [reduceNoInitGo]
  | cons item rest ih =>
    rw [reduceNoInitGo, ih, List.length_cons, List.range'_succ]
    simp

theorem reduceInitGo_collect (seed : List ℕ) (index : ℕ) (xs : List α) :
    reduceInitGo (fun acc _ i => acc ++ [i]) seed index xs =
      seed ++ List.range' index xs.length := by
  induction xs generalizing seed index with
  | nil => simp [reduceInitGo]
  | cons item rest ih =>
    rw [reduceInitGo, ih, List.length_cons, List.range'_succ]
    simp

/-- C2 counterexample: in the with-initial-value call shape the first
invocation of the reducer receives count 0, not 1: reducing `[10]` with
initial value `99` and a reducer that returns the count it was given yields
`0`. -/
theorem reduceInit_first_count_zero :
    reduceInit (fun _ _ i => i) 99 [(10 : ℤ)] = 0 ∧
    reduceInit (fun _ _ i => i) 99 [(10 : ℤ)] ≠ 1 := by
  constructor
  · rfl
  · decide

/-- C2 (amended): only the no-initial-value shape of `reduce` passes the
1-based count of folds (1, 2, ...) to the reducer; the with-initial-value
shape passes the 0-based index (0, 1, ...), so its first invocation receives
0. Shown by reducers that collect the counts they are given. -/
theorem reduce_count_bases (seed : List ℕ) (xs : List (List ℕ)) (ys : List ℤ) :
    reduceNoInit (fun acc _ i => acc ++ [i]) (seed :: xs) =
      .ok (seed ++ List.range' 1 xs.length) ∧
    reduceInit (fun acc _ i => acc ++ [i]) [] ys = List.range ys.length := by
  constructor
  · rw [reduceNoInit, reduceNoInitGo_collect]
  · rw [reduceInit, reduceInitGo_collect, List.nil_append, List.range_eq_range']

theorem reduceNoInitGo_const (g : α → α → α) (acc : α) (index : ℕ) (xs : List α) :
    reduceNoInitGo (fun a b _ => g a b) acc index xs = xs.foldl g acc := by
  induction xs generalizing acc index with
  | nil => rfl
  | cons item rest ih => rw [reduceNoInitGo, ih, List.foldl_cons]

/-- C7: with no initial value, `reduce(fn, seq)` on a non-empty sequence
folds left-to-right with the first element seeding the accumulator and
folding starting from the second element; in particular
`reduce((acc,item) => acc+item, [1,2,3,4]) = 10`. -/
theorem reduceNoInit_foldl (g : α → α → α) (x : α) (xs : List α) :
    reduceNoInit (fun a b _ => g a b) (x :: xs) = .ok (xs.foldl g x) ∧
    reduceNoInit (fun a b _ => a + b) [(1 : ℤ), 2, 3, 4] = .ok 10 := by
  constructor
  · rw [reduceNoInit, reduceNoInitGo_const]
  · rfl

/-- C8: `reduce` raises an error exactly when no initial value is supplied
and the sequence is empty (the error being the `TypeError` in the source);
with an initial value it returns normally on every finite sequence (the
embedding is a total function), and returns the initial value unchanged on
an empty sequence. -/
theorem reduce_error_iff_empty (f : α → α → ℕ → α) (g : β → α → ℕ → β)
    (b : β) (xs : List α) :
    ((∃ e, reduceNoInit f xs = .error e) ↔ xs = []) ∧
    (xs ≠ [] → ∃ v, reduceNoInit f xs = .ok v) ∧
    reduceInit g b [] = b := by
  refine ⟨?_, ?_, rfl⟩
  · cases xs with
    | nil =>
      exact ⟨fun _ => rfl, fun _ =>
        ⟨"You are trying to reduce of empty iterable with no initial value.", rfl⟩⟩
    | cons x rest =>
      constructor
      · rintro ⟨e, he⟩
        exact absurd he (by simp [reduceNoInit])
      · intro h
        exact absurd h (by simp)
  · intro h
    cases xs with
    | nil => exact absurd rfl h
    | cons x rest => exact ⟨reduceNoInitGo f x 0 rest, rfl⟩

/-! ### `pick`

```
export function pick(keys, obj) {
  return keys.reduce((acc, key) => {
    if (Object.hasOwn(obj, key)) {
      return Object.assign(acc, { [key]: obj[key] });
    }
    return acc;
  }, {});
}
```

A JavaScript object is modelled as its list of own enumerable properties in
insertion order, plus a prototype property list: `Object.hasOwn` consults
only the own properties while property access `obj[key]` falls back to the
prototype.  `Object.assign(acc, { [key]: v })` overwrites the value of an
existing key in place or appends a new key at the end. -/

/-- First-match key lookup in a property list (JavaScript property access on
a plain record of string keys). -/
def lookupKey (k : String) : List (String × V) → Option V
  | [] => none
  | p :: rest => if p.1 = k then some p.2 else lookupKey k rest

/-- A JavaScript object: own properties plus prototype-chain properties. -/
structure JSObj (V : Type u) where
  own : List (String × V)
  proto : List (String × V)

/-- `Object.hasOwn(obj, key)`: own properties only. -/
def hasOwn (obj : JSObj V) (key : String) : Bool :=
  (lookupKey key obj.own).isSome

/-- `obj[key]`: own properties first, then the prototype chain. -/
def getProp (obj : JSObj V) (key : String) : Option V :=
  (lookupKey key obj.own).orElse (fun _ => lookupKey key obj.proto)

/-- `Object.assign(acc, { [key]: v })` on the accumulator object. -/
def assignKey (acc : List (String × V)) (key : String) (v : V) :
    List (String × V) :=
  if acc.any (fun p => p.1 = key) then
    acc.map (fun p => if p.1 = key then (key, v) else p)
  else acc ++ [(key, v)]

/-- One step of the `keys.reduce` callback inside `pick`. -/
def pickStep (obj : JSObj V) (acc : List (String × V)) (key : String) :
    List (String × V) :=
  if hasOwn obj key then
    match getProp obj key with
    | some v => assignKey acc key v
    | none => acc
  else acc

/-- `pick(keys, obj)` from the source: fold the callback over `keys`
starting from the empty object. -/
def pick (keys : List String) (obj : JSObj V) : List (String × V) :=
  keys.foldl (pickStep obj) []

theorem lookupKey_map_self (key : String) (v : V) (acc : List (String × V))
    (h : acc.any (fun p => p.1 = key) = true) :
    lookupKey key (acc.map (fun p => if p.1 = key then (key, v) else p)) = some v := by
  induction acc with
  | nil => simp at h
  | cons q rest ih =>
    rw [List.map_cons]
    by_cases hq : q.1 = key
    · rw [if_pos hq]
      simp only [lookupKey]
      rw [if_pos trivial]
    · rw [if_neg hq]
      simp only [lookupKey]
      rw [if_neg hq]
      apply ih
      simp only [List.any_cons, Bool.or_eq_true, decide_eq_true_eq] at h
      rcases h with h | h
      · exact absurd h hq
      · exact h

theorem lookupKey_map_ne (key k : String) (v : V) (hk : k ≠ key)
    (acc : List (String × V)) :
    lookupKey k (acc.map (fun p => if p.1 = key then (key, v) else p)) =
      lookupKey k acc := by
  induction acc with
  | nil => rfl
  | cons q rest ih =>
    rw [List.map_cons]
    by_cases hq : q.1 = key
    · rw [if_pos hq]
      simp only [lookupKey]
      rw [if_neg (fun h => hk h.symm), if_neg (by rw [hq]; exact fun h => hk h.symm)]
      exact ih
    · rw [if_neg hq]
      simp only [lookupKey]
      by_cases hqk : q.1 = k
      · rw [if_pos hqk, if_pos hqk]
      · rw [if_neg hqk, if_neg hqk]
        exact ih

theorem lookupKey_append_self (key : String) (v : V) (acc : List (String × V))
    (h : acc.any (fun p => p.1 = key) = false) :
    lookupKey key (acc ++ [(key, v)]) = some v := by
  induction acc with
  | nil =>
    rw [List.nil_append]
    simp only [lookupKey]
    rw [if_pos trivial]
  | cons q rest ih =>
    simp only [List.any_cons, Bool.or_eq_false_iff, decide_eq_false_iff_not] at h
    rw [List.cons_append]
    simp only [lookupKey]
    rw [if_neg h.1]
    exact ih h.2

theorem lookupKey_append_ne (key k : String) (v : V) (hk : k ≠ key)
    (acc : List (String × V)) :
    lookupKey k (acc ++ [(key, v)]) = lookupKey k acc := by
  induction acc with
  | nil =>
    rw [List.nil_append]
    simp only [lookupKey]
    rw [if_neg (fun h => hk h.symm)]
  | cons q rest ih =>
    rw [List.cons_append]
    simp only [lookupKey]
    by_cases hqk : q.1 = k
    · rw [if_pos hqk, if_pos hqk]
    · rw [if_neg hqk, if_neg hqk]
      exact ih

theorem lookupKey_assignKey_self (acc : List (String × V)) (key : String) (v : V) :
    lookupKey key (assignKey acc key v) = some v := by
  rw [assignKey]
  by_cases h : acc.any (fun p => p.1 = key)
  · rw [if_pos h]
    exact lookupKey_map_self key v acc h
  · rw [if_neg h]
    have hf : acc.any (fun p => p.1 = key) = false := by
      cases hb : acc.any (fun p => p.1 = key) with
      | false => rfl
      | true => exact absurd hb h
    exact lookupKey_append_self key v acc hf

theorem lookupKey_assignKey_ne (acc : List (String × V)) (key k : String)
    (v : V) (hk : k ≠ key) :
    lookupKey k (assignKey acc key v) = lookupKey k acc := by
  rw [assignKey]
  by_cases h : acc.any (fun p => p.1 = key)
  · rw [if_pos h]
    exact lookupKey_map_ne key k v hk acc
  · rw [if_neg h]
    exact lookupKey_append_ne key k v hk acc

theorem pickStep_of_none (obj : JSObj V) (acc : List (String × V)) (key : String)
    (h : lookupKey key obj.own = none) :
    pickStep obj acc key = acc := by
  simp [pickStep, hasOwn, h]

theorem pickStep_of_some (obj : JSObj V) (acc : List (String × V)) (key : String)
    (v : V) (h : lookupKey key obj.own = some v) :
    pickStep obj acc key = assignKey acc key v := by
  simp [pickStep, hasOwn, getProp, h]

theorem pick_foldl_lookup (obj : JSObj V) (keys : List String)
    (acc : List (String × V)) (k : String) :
    lookupKey k (keys.foldl (pickStep obj) acc) =
      if k ∈ keys ∧ (lookupKey k obj.own).isSome then lookupKey k obj.own
      else lookupKey k acc := by
  induction keys generalizing acc with
  | nil => simp
  | cons key rest ih =>
    rw [List.foldl_cons, ih]
    by_cases hmem : k ∈ rest ∧ (lookupKey k obj.own).isSome
    · have hc : k ∈ key :: rest ∧ (lookupKey k obj.own).isSome :=
        ⟨List.mem_cons_of_mem key hmem.1, hmem.2⟩
      rw [if_pos hmem, if_pos hc]
    · rw [if_neg hmem]
      by_cases hkey : k = key
      · subst hkey
        cases hlook : lookupKey k obj.own with
        | none =>
          have hn : ¬(k ∈ k :: rest ∧ (none : Option V).isSome = true) := by
            rintro ⟨_, hs⟩
            simp at hs
          rw [pickStep_of_none obj acc k hlook, if_neg hn]
        | some v =>
          have hc : k ∈ k :: rest ∧ (some v : Option V).isSome = true :=
            ⟨List.mem_cons_self k rest, rfl⟩
          rw [pickStep_of_some obj acc k v hlook, if_pos hc,
            lookupKey_assignKey_self]
      · have hnot : ¬(k ∈ key :: rest ∧ (lookupKey k obj.own).isSome) := by
          rintro ⟨hmem2, hs⟩
          rcases List.mem_cons.mp hmem2 with h1 | h1
          · exact hkey h1
          · exact hmem ⟨h1, hs⟩
        rw [if_neg hnot]
        cases hlook : lookupKey key obj.own with
        | none => rw [pickStep_of_none obj acc key hlook]
        | some v =>
          rw [pickStep_of_some obj acc key v hlook,
            lookupKey_assignKey_ne acc key k v hkey]

/-- C9: `pick(keys, obj)` produces an object whose properties are exactly
the keys of `keys` that are own properties of `obj`, each bound to its value
in `obj`; keys absent from the own properties — including keys found only on
the prototype chain — are silently omitted. In particular
`pick(['foo'], {foo:'a', bar:'1'}) = {foo:'a'}` and
`pick(['baz'], {foo:'a'}) = {}`. -/
theorem pick_own_subset (keys : List String) (obj : JSObj V) (k : String) :
    lookupKey k (pick keys obj) =
      (if k ∈ keys then lookupKey k obj.own else none) ∧
    pick ["foo"] (JSObj.mk [("foo", "a"), ("bar", "1")] []) = [("foo", "a")] ∧
    pick ["baz"] (JSObj.mk [("foo", "a")] []) = [] := by
  refine ⟨?_, rfl, rfl⟩
  rw [pick, pick_foldl_lookup]
  by_cases hmem : k ∈ keys
  · cases hlook : lookupKey k obj.own with
    | none =>
      have hn : ¬(k ∈ keys ∧ (none : Option V).isSome = true) := by
        rintro ⟨_, hs⟩
        simp at hs
      rw [if_neg hn, if_pos hmem]
      rfl
    | some v =>
      have hc : k ∈ keys ∧ (some v : Option V).isSome = true := ⟨hmem, rfl⟩
      rw [if_pos hc, if_pos hmem]
  · rw [if_neg (fun hc => hmem hc.1), if_neg hmem]
    rfl

/-- Witness for C8 at a concrete input: the non-empty sequence `[1]` with a
summing reducer, and the initial value `0` on the empty sequence. -/
theorem reduce_error_iff_empty_witness :
    ((∃ e, reduceNoInit (fun a b _ => a + b) [(1 : ℤ)] = .error e) ↔ [(1 : ℤ)] = []) ∧
    ([(1 : ℤ)] ≠ [] → ∃ v, reduceNoInit (fun a b _ => a + b) [(1 : ℤ)] = .ok v) ∧
    reduceInit (fun (a : ℤ) (b : ℤ) (_ : ℕ) => a + b) 0 [] = 0 :=
  reduce_error_iff_empty (fun a b _ => a + b) (fun a b _ => a + b) 0 [(1 : ℤ)]

/-! ### Small-step iterator semantics for behaviour on infinite sources

A generator loop is a step function on a state: at each step it pulls the
next element from its source (an arbitrary iterator `next : σ → Option (α × σ)`)
and either yields, skips, or finishes.  `slice`'s loop body has no early
`return`, so its machine finishes only when the source is exhausted;
`take`'s loop returns as soon as `_count === count`.  The infinite integer
generator `infinity()` is the stream source `streamNext f` which never
returns `none`. -/

/-- Result of one step of a generator: yield a value, skip (consume a source
element without emitting), or finish. -/
inductive StepRes (α : Type u) (σ : Type v) where
  | yield (a : α) (s : σ) : StepRes α σ
  | skip (s : σ) : StepRes α σ
  | done : StepRes α σ

/-- The continuation state of a step, or `none` if the generator finished. -/
def stepState : StepRes α σ → Option σ
  | .yield _ s => some s
  | .skip s => some s
  | .done => none

/-- Run a generator for `k` steps: `some` of the reached state while still
running, `none` as soon as the generator has finished. -/
def runGen (step : σ → StepRes α σ) : ℕ → σ → Option σ
  | 0, s => some s
  | k + 1, s =>
    match stepState (step s) with
    | none => none
    | some s2 => runGen step k s2

/-- A never-exhausting source built from a stream `f`, as produced by
`infinity()`: position `n` yields `f n` and advances. -/
def streamNext (f : ℕ → α) (n : ℕ) : Option (α × ℕ) :=
  some (f n, n + 1)

/-- One iteration of `slice`'s loop over an arbitrary source: pull the next
element; if the source is exhausted the generator finishes, otherwise the
element is yielded or skipped according to `start <= index && index <= end`,
and the loop always continues. -/
def sliceStep (start stop : ℤ) (next : σ → Option (α × σ)) :
    ℕ × σ → StepRes α (ℕ × σ)
  | (index, s) =>
    match next s with
    | none => .done
    | some (e, s2) =>
      if start ≤ (index : ℤ) ∧ (index : ℤ) ≤ stop then .yield e (index + 1, s2)
      else .skip (index + 1, s2)

/-- One iteration of `take`'s loop over an arbitrary source: pull the next
element; the generator finishes when the source is exhausted or when
`_count === count` fires. -/
def takeStep (count : ℤ) (next : σ → Option (α × σ)) :
    ℕ × σ → StepRes α (ℕ × σ)
  | (c, s) =>
    match next s with
    | none => .done
    | some (e, s2) => if (c : ℤ) = count then .done else .yield e (c + 1, s2)

theorem runGen_sliceStep_stream (f : ℕ → α) (start stop : ℤ) (k : ℕ) :
    ∀ (i n : ℕ),
      runGen (sliceStep start stop (streamNext f)) k (i, n) = some (i + k, n + k) := by
  induction k with
  | zero => intro i n; rfl
  | succ k ih =>
    intro i n
    have hstep :
        stepState (sliceStep start stop (streamNext f) (i, n)) = some (i + 1, n + 1) := by
      by_cases hc : start ≤ (i : ℤ) ∧ (i : ℤ) ≤ stop
      · simp [sliceStep, streamNext, stepState, hc]
      · simp [sliceStep, streamNext, stepState, hc]
    rw [runGen, hstep]
    show runGen (sliceStep start stop (streamNext f)) k (i + 1, n + 1) =
      some (i + (k + 1), n + (k + 1))
    rw [ih (i + 1) (n + 1)]
    have h1 : i + 1 + k = i + (k + 1) := by omega
    have h2 : n + 1 + k = n + (k + 1) := by omega
    rw [h1, h2]

theorem runGen_takeStep_stream (f : ℕ → α) (n : ℕ) :
    ∀ (c s : ℕ),
      runGen (takeStep ((c + n : ℕ) : ℤ) (streamNext f)) (n + 1) (c, s) = none := by
  induction n with
  | zero =>
    intro c s
    have hstep :
        stepState (takeStep ((c + 0 : ℕ) : ℤ) (streamNext f) (c, s)) = none := by
      show stepState (if ((c : ℕ) : ℤ) = ((c + 0 : ℕ) : ℤ)
          then StepRes.done else StepRes.yield (f s) (c + 1, s + 1)) = none
      rw [if_pos (by push_cast; omega)]
      rfl
    rw [runGen, hstep]
  | succ n ih =>
    intro c s
    have hstep :
        stepState (takeStep ((c + (n + 1) : ℕ) : ℤ) (streamNext f) (c, s)) =
          some (c + 1, s + 1) := by
      have hne : ¬(((c : ℕ) : ℤ) = ((c + (n + 1) : ℕ) : ℤ)) := by
        push_cast
        omega
      show stepState (if ((c : ℕ) : ℤ) = ((c + (n + 1) : ℕ) : ℤ)
          then StepRes.done else StepRes.yield (f s) (c + 1, s + 1)) =
        some (c + 1, s + 1)
      rw [if_neg hne]
      rfl
    rw [runGen, hstep]
    show runGen (takeStep ((c + (n + 1) : ℕ) : ℤ) (streamNext f)) (n + 1) (c + 1, s + 1) =
      none
    have hcast : ((c + (n + 1) : ℕ) : ℤ) = (((c + 1) + n : ℕ) : ℤ) := by
      push_cast
      omega
    rw [hcast]
    exact ih (c + 1) (s + 1)

/-- C10: iterating `slice(start, end, seq)` consumes the entire source: its
loop has no early exit, so over the infinite source `infinity()` the slice
generator is still running after any number `k` of steps even though `end`
is finite — `toArray(slice(...))` can terminate only on a finite source.
`take(n, ...)`, by contrast, finishes after `n + 1` loop iterations on the
same infinite source. -/
theorem slice_never_exhausts_infinite (f : ℕ → α) (start stop : ℤ) (k n : ℕ) :
    (runGen (sliceStep start stop (streamNext f)) k (0, 0)).isSome = true ∧
    runGen (takeStep ((n : ℕ) : ℤ) (streamNext f)) (n + 1) (0, 0) = none := by
  constructor
  · rw [runGen_sliceStep_stream f start stop k 0 0]
    rfl
  · have h := runGen_takeStep_stream f n 0 0
    simpa using h

end CommonUtils
